import Mathlib

/-!
Shallow embedding of `src/main.cpp` (rowles/cpp-inverted-index): a serialization
codec for vectors of fixed-width integers, an in-memory key-value store, and an
inverted index mapping terms to sorted vectors of document ids.

Bytes are modelled as natural numbers below 256; a byte buffer is a `List Nat`.
`DocId` is `uint64_t` in the source, so doc-ids are naturals below `2 ^ 64`; the
8-byte little-endian in-memory image of a `uint64_t` (the x86-64 host layout the
code serializes with `os.write(reinterpret_cast<...>, ...)`) is made explicit.
-/

namespace InvIdx

/-! ## Codec: namespace `serialize` of the source -/

/-- Little-endian byte image of a value in `w` bytes (the in-memory layout of a
fixed-width unsigned integer on the little-endian host). -/
def toLEBytes : Nat → Nat → List Nat
  | 0, _ => []
  | w + 1, v => (v % 256) :: toLEBytes w (v / 256)

/-- Value of a little-endian byte sequence. -/
def fromLEBytes : List Nat → Nat
  | [] => 0
  | b :: bs => b + 256 * fromLEBytes bs

/-- Byte image of the elements of a `std::vector<uint64_t>`, one 8-byte image
per element, no padding (`os.write(&data[0], len * sizeof(T))`). -/
def elemBytes : List Nat → List Nat
  | [] => []
  | d :: ds => toLEBytes 8 d ++ elemBytes ds

/-- `serialize::write_vector` for `T = uint64_t`: the bytes appended to the
stream are the 8-byte `size_t` length followed by the element images. -/
def write_vector (data : List Nat) : List Nat :=
  toLEBytes 8 data.length ++ elemBytes data

/-- An input string stream: the bytes not yet consumed, and the fail bit. -/
structure IStream where
  data : List Nat
  fail : Bool
deriving DecidableEq

/-- `is.read(buf, n)`: in a fail state nothing is extracted; otherwise the
requested bytes are consumed, or, when fewer are available, all remaining bytes
are extracted and the fail bit is set. Returns the stream and the bytes read. -/
def IStream.read (s : IStream) (n : Nat) : IStream × List Nat :=
  if s.fail then (s, [])
  else if n ≤ s.data.length then (⟨s.data.drop n, false⟩, s.data.take n)
  else (⟨[], true⟩, s.data)

/-- Contents of the destination array after `data.resize(len)` (zero-filled)
followed by `is.read(&data[0], 8 * len)` that delivered the bytes `bs`:
element `i` is formed from bytes `8*i .. 8*i+7`, missing bytes staying zero. -/
def readElems : Nat → List Nat → List Nat
  | 0, _ => []
  | n + 1, bs => fromLEBytes (bs.take 8) :: readElems n (bs.drop 8)

/-- `serialize::read_vector` for `T = uint64_t`: read 8 bytes into the
zero-initialized `size_t len` (a short read leaves the high bytes zero and sets
the fail bit), `resize(len)`, then read `8 * len` bytes into the elements. -/
def read_vector (s : IStream) : IStream × List Nat :=
  let hdr := s.read 8
  let len := fromLEBytes hdr.2
  let body := hdr.1.read (8 * len)
  (body.1, readElems len body.2)

/-! ## Codec lemmas -/

theorem toLEBytes_length (w v : Nat) : (toLEBytes w v).length = w := by
  induction w generalizing v with
  | zero => rfl
  | succ w ih => simp [toLEBytes, ih]

theorem fromLEBytes_toLEBytes (w v : Nat) (h : v < 256 ^ w) :
    fromLEBytes (toLEBytes w v) = v := by
  induction w generalizing v with
  | zero => simp [pow_zero] at h; simp [toLEBytes, fromLEBytes, h]
  | succ w ih =>
      have hdiv : v / 256 < 256 ^ w := by
        rw [Nat.div_lt_iff_lt_mul (by norm_num)]
        calc v < 256 ^ (w + 1) := h
        _ = 256 ^ w * 256 := by ring
      simp [toLEBytes, fromLEBytes, ih _ hdiv, Nat.mod_add_div]

theorem elemBytes_length (L : List Nat) : (elemBytes L).length = 8 * L.length := by
  induction L with
  | nil => rfl
  | cons d ds ih => simp [elemBytes, ih, toLEBytes_length]; ring

theorem readElems_nil (n : Nat) : readElems n [] = List.replicate n 0 := by
  induction n with
  | zero => rfl
  | succ n ih => simp [readElems, fromLEBytes, ih, List.replicate_succ]

theorem readElems_elemBytes (L rest : List Nat) (hL : ∀ d ∈ L, d < 2 ^ 64) :
    readElems L.length (elemBytes L ++ rest) = L := by
  induction L with
  | nil => rfl
  | cons d ds ih =>
      have h8 : (toLEBytes 8 d).length = 8 := toLEBytes_length 8 d
      have hd : d < 256 ^ 8 := by
        have h := hL d (by simp)
        have h2 : (256 : Nat) ^ 8 = 2 ^ 64 := by norm_num
        omega
      simp only [List.length_cons, readElems, elemBytes, List.append_assoc,
        List.take_left' h8, List.drop_left' h8]
      rw [fromLEBytes_toLEBytes 8 d hd, ih (fun e he => hL e (by simp [he]))]

/-- A read of exactly the first `n` bytes of a non-failed stream. -/
theorem IStream.read_exact (n : Nat) (bs rest : List Nat) (h : bs.length = n) :
    IStream.read ⟨bs ++ rest, false⟩ n = (⟨rest, false⟩, bs) := by
  have hle : n ≤ (bs ++ rest).length := by simp [← h]
  simp only [IStream.read, Bool.false_eq_true, if_false, if_pos hle,
    List.take_left' h, List.drop_left' h]

/-- Round-trip with trailing bytes: reading from a stream whose contents start
with an encoded vector consumes exactly the encoding and returns the vector. -/
theorem read_write_vector (L rest : List Nat) (hL : ∀ d ∈ L, d < 2 ^ 64)
    (hlen : L.length < 2 ^ 64) :
    read_vector ⟨write_vector L ++ rest, false⟩ = (⟨rest, false⟩, L) := by
  have hlen' : L.length < 256 ^ 8 := by
    have h2 : (256 : Nat) ^ 8 = 2 ^ 64 := by norm_num
    omega
  have h1 := IStream.read_exact 8 (toLEBytes 8 L.length) (elemBytes L ++ rest)
    (toLEBytes_length 8 L.length)
  have h2 := IStream.read_exact (8 * L.length) (elemBytes L) rest (elemBytes_length L)
  simp only [read_vector, write_vector, List.append_assoc, h1,
    fromLEBytes_toLEBytes 8 L.length hlen', h2]
  rw [show elemBytes L = elemBytes L ++ [] by simp, readElems_elemBytes L [] hL]

/-! ## Ordered-search primitives used by `add_existing_term` -/

/-- `std::lower_bound(begin, end, v, std::less<DocId>())` on a range partitioned
by `(· < v)`: the index of the first element not less than `v`. -/
def lower_bound : List Nat → Nat → Nat
  | [], _ => 0
  | a :: l, v => if a < v then lower_bound l v + 1 else 0

/-- `std::binary_search(begin, end, v)`: the lower-bound position is in range
and the element there is not greater than `v`. -/
def binary_search (l : List Nat) (v : Nat) : Bool :=
  decide (lower_bound l v < l.length) && ! decide (v < l.getD (lower_bound l v) 0)

/-- `doc_vec.insert(it, did)` at `it = lower_bound(...)`: insert `v` in front of
the first element not less than `v`. -/
def insert_lb : List Nat → Nat → List Nat
  | [], v => [v]
  | a :: l, v => if a < v then a :: insert_lb l v else v :: a :: l

theorem binary_search_sorted (l : List Nat) (v : Nat) (hs : List.Sorted (· < ·) l) :
    binary_search l v = true ↔ v ∈ l := by
  induction l with
  | nil => simp [binary_search, lower_bound]
  | cons a l ih =>
      rw [List.sorted_cons] at hs
      by_cases hav : a < v
      · have : binary_search (a :: l) v = binary_search l v := by
          simp [binary_search, lower_bound, hav]
        rw [this, ih hs.2]
        simp only [List.mem_cons]
        constructor
        · exact Or.inr
        · rintro (rfl | h)
          · omega
          · exact h
      · have hb : binary_search (a :: l) v = ! decide (v < a) := by
          simp [binary_search, lower_bound, hav]
        rw [hb]
        simp only [List.mem_cons, Bool.not_eq_eq_eq_not, Bool.not_true,
          decide_eq_false_iff_not, not_lt]
        constructor
        · intro hva
          left
          omega
        · rintro (rfl | h)
          · omega
          · have := hs.1 v h
            omega

theorem mem_insert_lb (l : List Nat) (v x : Nat) :
    x ∈ insert_lb l v ↔ x = v ∨ x ∈ l := by
  induction l with
  | nil => simp [insert_lb]
  | cons a l ih =>
      by_cases hav : a < v
      · simp [insert_lb, hav, ih]
        tauto
      · simp [insert_lb, hav]

theorem insert_lb_length (l : List Nat) (v : Nat) :
    (insert_lb l v).length = l.length + 1 := by
  induction l with
  | nil => rfl
  | cons a l ih =>
      by_cases hav : a < v <;> simp [insert_lb, hav, ih]

theorem insert_lb_ne_nil (l : List Nat) (v : Nat) : insert_lb l v ≠ [] := by
  intro h
  have := insert_lb_length l v
  rw [h] at this
  simp at this

theorem insert_lb_sorted (l : List Nat) (v : Nat) (hs : List.Sorted (· < ·) l)
    (hv : v ∉ l) : List.Sorted (· < ·) (insert_lb l v) := by
  induction l with
  | nil => simp [insert_lb]
  | cons a l ih =>
      rw [List.sorted_cons] at hs
      simp only [List.mem_cons, not_or] at hv
      by_cases hav : a < v
      · rw [show insert_lb (a :: l) v = a :: insert_lb l v by simp [insert_lb, hav]]
        rw [List.sorted_cons]
        refine ⟨?_, ih hs.2 hv.2⟩
        intro b hb
        rcases (mem_insert_lb l v b).mp hb with rfl | hbl
        · exact hav
        · exact hs.1 b hbl
      · rw [show insert_lb (a :: l) v = v :: a :: l by simp [insert_lb, hav]]
        rw [List.sorted_cons]
        refine ⟨?_, List.sorted_cons.mpr hs⟩
        intro b hb
        rcases List.mem_cons.mp hb with rfl | hbl
        · omega
        · have := hs.1 b hbl
          omega

/-! ## `iidx::KVStore` -/

/-- Lookup in the association list modelling `std::unordered_map`. -/
def assocFind : List (String × List Nat) → String → Option (List Nat)
  | [], _ => none
  | (k, v) :: rest, q => if k = q then some v else assocFind rest q

/-- Update-or-append in the association list: an existing key's value is
replaced in place, a new key is appended. -/
def assocInsert : List (String × List Nat) → String → List Nat →
    List (String × List Nat)
  | [], q, v => [(q, v)]
  | (k, w) :: rest, q, v =>
      if k = q then (k, v) :: rest else (k, w) :: assocInsert rest q v

/-- `iidx::KVStore`: an in-memory map from term to blob, the blob being the
byte string produced by the codec. -/
structure KVStore where
  store : List (String × List Nat)
deriving DecidableEq

/-- `KVStore::insert`: `_store[k] = v`. -/
def KVStore.insert (s : KVStore) (k : String) (v : List Nat) : KVStore :=
  ⟨assocInsert s.store k v⟩

/-- `KVStore::get`: `return _store[k]`. `operator[]` on a missing key inserts a
default (empty) value and returns it, so `get` also yields the updated map. -/
def KVStore.get (s : KVStore) (k : String) : KVStore × List Nat :=
  match assocFind s.store k with
  | some v => (s, v)
  | none => (s.insert k [], [])

/-- `KVStore::exists`: `_store.find(k) != _store.end()`. -/
def KVStore.existsKey (s : KVStore) (k : String) : Bool :=
  (assocFind s.store k).isSome

theorem assocFind_assocInsert (l : List (String × List Nat)) (k q : String)
    (v : List Nat) :
    assocFind (assocInsert l k v) q = if k = q then some v else assocFind l q := by
  induction l with
  | nil => simp [assocInsert, assocFind]
  | cons p rest ih =>
      obtain ⟨pk, pv⟩ := p
      by_cases hpk : pk = k
      · subst hpk
        by_cases hq : pk = q <;> simp [assocInsert, assocFind, hq]
      · by_cases hq : pk = q
        · subst hq
          have : ¬ k = pk := fun h => hpk h.symm
          simp [assocInsert, assocFind, hpk, this]
        · simp [assocInsert, assocFind, hpk, hq, ih]

theorem KVStore.get_found (s : KVStore) (k : String) (v : List Nat)
    (h : assocFind s.store k = some v) : s.get k = (s, v) := by
  simp [KVStore.get, h]

/-! ## `iidx::IIndex` -/

/-- `iidx::IIndex`: the index owns its key-value store. -/
structure IIndex where
  _kvstore : KVStore
deriving DecidableEq

/-- `IIndex::get_doc_vector`: if the term exists, `get` its blob and decode it
with `serialize::read_vector` from a fresh string stream; otherwise `{}`. -/
def IIndex.get_doc_vector (idx : IIndex) (term : String) :
    IIndex × Option (List Nat) :=
  if idx._kvstore.existsKey term then
    let g := idx._kvstore.get term
    (⟨g.1⟩, some (read_vector ⟨g.2, false⟩).2)
  else (idx, none)

/-- `IIndex::add_new_term`: encode the singleton vector `{did}` and store it. -/
def IIndex.add_new_term (idx : IIndex) (did : Nat) (term : String) : IIndex :=
  ⟨idx._kvstore.insert term (write_vector [did])⟩

/-- `IIndex::add_existing_term`: `get` the blob, decode the vector via
`get_doc_vector(term).value()`, and unless `std::binary_search` finds `did`,
insert it at the `std::lower_bound` position, re-encode and store. The `none`
branch models `.value()` on an empty optional, unreachable when `term` exists. -/
def IIndex.add_existing_term (idx : IIndex) (did : Nat) (term : String) : IIndex :=
  let g := idx._kvstore.get term
  match IIndex.get_doc_vector ⟨g.1⟩ term with
  | (idx2, some doc_vec) =>
      if binary_search doc_vec did then idx2
      else ⟨idx2._kvstore.insert term (write_vector (insert_lb doc_vec did))⟩
  | (idx2, none) => idx2

/-- `IIndex::add_term`: dispatch on `_kvstore.exists(term)`. -/
def IIndex.add_term (idx : IIndex) (did : Nat) (term : String) : IIndex :=
  if ! idx._kvstore.existsKey term then idx.add_new_term did term
  else idx.add_existing_term did term

/-- The empty index a default-constructed `IIndex` starts from. -/
def emptyIndex : IIndex := ⟨⟨[]⟩⟩

/-- Execute a finite sequence of `add_term` calls, in order, from the empty
index. -/
def runAdds (ops : List (Nat × String)) : IIndex :=
  ops.foldl (fun idx p => idx.add_term p.1 p.2) emptyIndex

/-- The demo corpus built by `main`, in program order. -/
def demoOps : List (Nat × String) :=
  [(0, "dog"), (0, "cat"), (1, "cat"), (1, "mouse"), (1, "house"),
   (2, "cat"), (2, "dog"), (2, "tree"), (1, "tree")]

/-- Per-term invariant tying the blob stored (or not stored) under `t` to the
history of `add_term` calls `ops`. -/
def TermInv (ops : List (Nat × String)) (t : String) : Option (List Nat) → Prop
  | none => ∀ d, (d, t) ∉ ops
  | some blob => ∃ L, blob = write_vector L ∧ List.Sorted (· < ·) L ∧
      (∀ d, d ∈ L ↔ (d, t) ∈ ops) ∧ (∀ d ∈ L, d < 2 ^ 64) ∧ L ≠ [] ∧
      L.length ≤ ops.length

/-- Store invariant: every term's entry satisfies `TermInv`. -/
def Inv (ops : List (Nat × String)) (idx : IIndex) : Prop :=
  ∀ t, TermInv ops t (assocFind idx._kvstore.store t)

/-- Error kinds the specification ascribes to the codec's read operation. -/
inductive ReadErr where
  | Truncated
  | LengthOverflow
deriving DecidableEq

/-- Transcription of the specification's words for `read(buf)` (§4.1), for
comparison with the implementation `read_vector`: consume exactly
`8 + len * 8` bytes and reconstruct the sequence; fail with `Truncated` when
fewer than 8 header bytes are available, with `LengthOverflow` when the
declared length would exceed the remaining buffer. Returns the sequence and
the unconsumed remainder. -/
def readVectorSpec (buf : List Nat) : Except ReadErr (List Nat × List Nat) :=
  if buf.length < 8 then .error .Truncated
  else
    let len := fromLEBytes (buf.take 8)
    if buf.length - 8 < 8 * len then .error .LengthOverflow
    else .ok (readElems len ((buf.drop 8).take (8 * len)), buf.drop (8 + 8 * len))

/-- Error kind the specification ascribes to the store's `get`. -/
inductive StoreErr where
  | MissingKey
deriving DecidableEq

/-- Transcription of the specification's table for `get(k)` (§4.2), for
comparison with the implementation `KVStore.get`: the blob when the key
exists, `MissingKey` otherwise. -/
def getSpec (s : KVStore) (k : String) : Except StoreErr (List Nat) :=
  match assocFind s.store k with
  | some v => .ok v
  | none => .error .MissingKey

/-! ## The store invariant maintained by `add_term` -/

/-- Round-trip on a stream holding exactly one encoded vector. -/
theorem read_write_vector' (L : List Nat) (hL : ∀ d ∈ L, d < 2 ^ 64)
    (hlen : L.length < 2 ^ 64) :
    read_vector ⟨write_vector L, false⟩ = (⟨[], false⟩, L) := by
  have h := read_write_vector L [] hL hlen
  simpa using h

theorem existsKey_eq_false {s : KVStore} {k : String}
    (h : assocFind s.store k = none) : s.existsKey k = false := by
  simp [KVStore.existsKey, h]

theorem existsKey_eq_true {s : KVStore} {k : String} {v : List Nat}
    (h : assocFind s.store k = some v) : s.existsKey k = true := by
  simp [KVStore.existsKey, h]

theorem get_doc_vector_of_missing (idx : IIndex) (term : String)
    (h : assocFind idx._kvstore.store term = none) :
    idx.get_doc_vector term = (idx, none) := by
  simp [IIndex.get_doc_vector, existsKey_eq_false h]

theorem get_doc_vector_of_found (idx : IIndex) (term : String) (L : List Nat)
    (h : assocFind idx._kvstore.store term = some (write_vector L))
    (hL : ∀ e ∈ L, e < 2 ^ 64) (hlen : L.length < 2 ^ 64) :
    idx.get_doc_vector term = (idx, some L) := by
  simp [IIndex.get_doc_vector, existsKey_eq_true h, KVStore.get_found _ _ _ h,
    read_write_vector' L hL hlen]

theorem add_term_of_missing (idx : IIndex) (d : Nat) (t : String)
    (h : assocFind idx._kvstore.store t = none) :
    idx.add_term d t = ⟨idx._kvstore.insert t (write_vector [d])⟩ := by
  simp [IIndex.add_term, existsKey_eq_false h, IIndex.add_new_term]

theorem add_term_of_found (idx : IIndex) (d : Nat) (t : String) (L : List Nat)
    (h : assocFind idx._kvstore.store t = some (write_vector L))
    (hL : ∀ e ∈ L, e < 2 ^ 64) (hlen : L.length < 2 ^ 64) :
    idx.add_term d t =
      if binary_search L d then idx
      else ⟨idx._kvstore.insert t (write_vector (insert_lb L d))⟩ := by
  have hget : idx._kvstore.get t = (idx._kvstore, write_vector L) :=
    KVStore.get_found _ _ _ h
  have hgdv : IIndex.get_doc_vector ⟨idx._kvstore⟩ t = (⟨idx._kvstore⟩, some L) :=
    get_doc_vector_of_found ⟨idx._kvstore⟩ t L h hL hlen
  simp [IIndex.add_term, existsKey_eq_true h, IIndex.add_existing_term, hget, hgdv]

theorem pair_mem_snoc (ops : List (Nat × String)) (e d : Nat) (t' t : String) :
    (e, t') ∈ ops ++ [(d, t)] ↔ (e, t') ∈ ops ∨ (e = d ∧ t' = t) := by
  simp [List.mem_append, Prod.ext_iff]

theorem TermInv_snoc (ops : List (Nat × String)) (d : Nat) (t t' : String)
    (o : Option (List Nat)) (ht : t' ≠ t) (h : TermInv ops t' o) :
    TermInv (ops ++ [(d, t)]) t' o := by
  cases o with
  | none =>
      intro e he
      rcases (pair_mem_snoc ops e d t' t).mp he with h1 | h2
      · exact h e h1
      · exact ht h2.2
  | some blob =>
      obtain ⟨L, hb, hs, hm, hbound, hne, hlen⟩ := h
      refine ⟨L, hb, hs, ?_, hbound, hne, ?_⟩
      · intro e
        rw [hm e] at *
        rw [pair_mem_snoc]
        constructor
        · exact Or.inl
        · rintro (h1 | ⟨rfl, rfl⟩)
          · exact h1
          · exact absurd rfl ht
      · rw [List.length_append]
        omega

/-- One `add_term` step preserves the store invariant, extending the history. -/
theorem Inv_add_term (ops : List (Nat × String)) (idx : IIndex) (d : Nat)
    (t : String) (hinv : Inv ops idx) (hd : d < 2 ^ 64)
    (hops : ops.length < 2 ^ 64) :
    Inv (ops ++ [(d, t)]) (idx.add_term d t) := by
  cases hfind : assocFind idx._kvstore.store t with
  | none =>
      have hnone : ∀ e, (e, t) ∉ ops := by
        have h := hinv t
        rw [hfind] at h
        exact h
      rw [add_term_of_missing idx d t hfind]
      intro t'
      show TermInv _ t'
        (assocFind (assocInsert idx._kvstore.store t (write_vector [d])) t')
      rw [assocFind_assocInsert]
      by_cases ht : t = t'
      · subst ht
        rw [if_pos rfl]
        refine ⟨[d], rfl, by simp, ?_, by simpa using hd, by simp, ?_⟩
        · intro e
          rw [pair_mem_snoc, List.mem_singleton]
          constructor
          · intro he
            exact Or.inr ⟨he, rfl⟩
          · rintro (h1 | ⟨rfl, _⟩)
            · exact absurd h1 (hnone e)
            · rfl
        · rw [List.length_append]
          simp
      · rw [if_neg ht]
        exact TermInv_snoc ops d t t' _ (fun h => ht h.symm) (hinv t')
  | some blob =>
      have hsome := hinv t
      rw [hfind] at hsome
      obtain ⟨L, hb, hs, hm, hbound, hne, hlen⟩ := hsome
      subst hb
      have hlenlt : L.length < 2 ^ 64 := lt_of_le_of_lt hlen hops
      rw [add_term_of_found idx d t L hfind hbound hlenlt]
      by_cases hmem : binary_search L d = true
      · rw [if_pos hmem]
        have hdL : d ∈ L := (binary_search_sorted L d hs).mp hmem
        intro t'
        by_cases ht : t = t'
        · subst ht
          rw [hfind]
          refine ⟨L, rfl, hs, ?_, hbound, hne, ?_⟩
          · intro e
            rw [pair_mem_snoc]
            constructor
            · intro he
              exact Or.inl ((hm e).mp he)
            · rintro (h1 | ⟨rfl, _⟩)
              · exact (hm e).mpr h1
              · exact hdL
          · rw [List.length_append]
            omega
        · exact TermInv_snoc ops d t t' _ (fun h => ht h.symm) (hinv t')
      · rw [if_neg hmem]
        have hdL : d ∉ L := fun h => hmem ((binary_search_sorted L d hs).mpr h)
        intro t'
        show TermInv _ t'
          (assocFind
            (assocInsert idx._kvstore.store t (write_vector (insert_lb L d))) t')
        rw [assocFind_assocInsert]
        by_cases ht : t = t'
        · subst ht
          rw [if_pos rfl]
          refine ⟨insert_lb L d, rfl, insert_lb_sorted L d hs hdL, ?_, ?_,
            insert_lb_ne_nil L d, ?_⟩
          · intro e
            rw [mem_insert_lb, pair_mem_snoc]
            constructor
            · rintro (rfl | h1)
              · exact Or.inr ⟨rfl, rfl⟩
              · exact Or.inl ((hm e).mp h1)
            · rintro (h1 | ⟨rfl, _⟩)
              · exact Or.inr ((hm e).mpr h1)
              · exact Or.inl rfl
          · intro e he
            rcases (mem_insert_lb L d e).mp he with rfl | h1
            · exact hd
            · exact hbound e h1
          · rw [insert_lb_length]
            simp only [List.length_append, List.length_cons, List.length_nil]
            omega
        · rw [if_neg ht]
          exact TermInv_snoc ops d t t' _ (fun h => ht h.symm) (hinv t')

theorem runAdds_snoc (ops : List (Nat × String)) (p : Nat × String) :
    runAdds (ops ++ [p]) = (runAdds ops).add_term p.1 p.2 := by
  simp [runAdds, List.foldl_append]

/-- The invariant holds after any finite sequence of `add_term` calls with
`uint64_t` doc-ids and a `size_t`-sized call count. -/
theorem Inv_runAdds (ops : List (Nat × String))
    (h1 : ∀ p ∈ ops, p.1 < 2 ^ 64) (h2 : ops.length < 2 ^ 64) :
    Inv ops (runAdds ops) := by
  induction ops using List.reverseRecOn with
  | nil =>
      intro t e
      simp
  | append_singleton l p ih =>
      obtain ⟨d, t⟩ := p
      rw [runAdds_snoc]
      have hlen : l.length < 2 ^ 64 := by
        rw [List.length_append] at h2
        omega
      exact Inv_add_term l _ d t
        (ih (fun q hq => h1 q (by simp [hq])) hlen)
        (h1 (d, t) (by simp)) hlen

/-- Characterization of `lookup`: on any reachable index, `get_doc_vector`
leaves the store untouched and returns either absence (the term was never
added) or the sorted non-empty list of exactly the added doc-ids. -/
theorem gdv_spec (ops : List (Nat × String)) (h1 : ∀ p ∈ ops, p.1 < 2 ^ 64)
    (h2 : ops.length < 2 ^ 64) (t : String) :
    ((runAdds ops).get_doc_vector t = ((runAdds ops), none) ∧ ∀ d, (d, t) ∉ ops)
  ∨ (∃ L, (runAdds ops).get_doc_vector t = ((runAdds ops), some L) ∧
      List.Sorted (· < ·) L ∧ (∀ d, d ∈ L ↔ (d, t) ∈ ops) ∧ L ≠ []) := by
  have hinv := Inv_runAdds ops h1 h2
  cases hfind : assocFind (runAdds ops)._kvstore.store t with
  | none =>
      left
      have h := hinv t
      rw [hfind] at h
      exact ⟨get_doc_vector_of_missing _ t hfind, h⟩
  | some blob =>
      right
      have h := hinv t
      rw [hfind] at h
      obtain ⟨L, hb, hs, hm, hbound, hne, hlen⟩ := h
      subst hb
      exact ⟨L, get_doc_vector_of_found _ t L hfind hbound (lt_of_le_of_lt hlen h2),
        hs, hm, hne⟩

/-! ## Claim theorems -/

/-- C1: for every finite sequence of `add(docId, term)` calls from an empty
index and every term `t`, `lookup(t)` returns exactly the set of doc-ids paired
with `t`, each exactly once (count 1 for paired ids, 0 otherwise), and absence
when `t` was never paired with any doc-id. -/
theorem c1_lookup_exact_set (ops : List (Nat × String))
    (h1 : ∀ p ∈ ops, p.1 < 2 ^ 64) (h2 : ops.length < 2 ^ 64)
    (t : String) (d : Nat) :
    (match ((runAdds ops).get_doc_vector t).2 with
     | none => (d, t) ∉ ops
     | some L => L.count d = if (d, t) ∈ ops then 1 else 0) ∧
    ((∀ e : Nat, (e, t) ∉ ops) → ((runAdds ops).get_doc_vector t).2 = none) := by
  rcases gdv_spec ops h1 h2 t with ⟨hl, hnone⟩ | ⟨L, hl, hs, hm, hne⟩
  · constructor
    · rw [hl]
      exact hnone d
    · intro _
      rw [hl]
  · constructor
    · rw [hl]
      show L.count d = if (d, t) ∈ ops then 1 else 0
      by_cases hdt : (d, t) ∈ ops
      · rw [if_pos hdt]
        exact List.count_eq_one_of_mem hs.nodup ((hm d).mpr hdt)
      · rw [if_neg hdt]
        exact List.count_eq_zero.mpr (fun hdl => hdt ((hm d).mp hdl))
    · intro hall
      obtain ⟨e, he⟩ := List.exists_mem_of_ne_nil L hne
      exact absurd ((hm e).mp he) (hall e)

theorem c1_witness :
    (match ((runAdds [(0, "a"), (0, "a"), (1, "a")]).get_doc_vector "a").2 with
     | none => ((0 : Nat), "a") ∉ [(0, "a"), (0, "a"), (1, "a")]
     | some L => L.count 0 =
         if ((0 : Nat), "a") ∈ [(0, "a"), (0, "a"), (1, "a")] then 1 else 0) ∧
    ((∀ e : Nat, (e, "a") ∉ [(0, "a"), (0, "a"), (1, "a")]) →
      ((runAdds [(0, "a"), (0, "a"), (1, "a")]).get_doc_vector "a").2 = none) :=
  c1_lookup_exact_set [(0, "a"), (0, "a"), (1, "a")] (by decide) (by decide) "a" 0

/-- C2: after any finite sequence of adds, a list returned by `lookup(t)` is
strictly ascending, hence duplicate-free. -/
theorem c2_lookup_strictly_ascending (ops : List (Nat × String))
    (h1 : ∀ p ∈ ops, p.1 < 2 ^ 64) (h2 : ops.length < 2 ^ 64)
    (t : String) (L : List Nat)
    (hL : ((runAdds ops).get_doc_vector t).2 = some L) :
    List.Sorted (· < ·) L ∧ L.Nodup := by
  rcases gdv_spec ops h1 h2 t with ⟨hl, _⟩ | ⟨L', hl, hs, _, _⟩
  · rw [hl] at hL
    simp at hL
  · rw [hl] at hL
    simp only [Option.some.injEq] at hL
    subst hL
    exact ⟨hs, hs.nodup⟩

theorem c2_witness : List.Sorted (· < ·) ([3, 7, 9] : List Nat) ∧
    ([3, 7, 9] : List Nat).Nodup :=
  c2_lookup_strictly_ascending [(9, "a"), (3, "a"), (7, "a")]
    (by decide) (by decide) "a" [3, 7, 9] (by decide)

/-- C3: the codec round-trips: `read_vector` applied to the bytes produced by
`write_vector` on a posting list of 64-bit doc-ids reconstructs exactly the
original list (consuming the whole stream, with the stream left good). -/
theorem c3_codec_roundtrip (L : List Nat) (hL : ∀ d ∈ L, d < 2 ^ 64)
    (hlen : L.length < 2 ^ 64) :
    read_vector ⟨write_vector L, false⟩ = (⟨[], false⟩, L) :=
  read_write_vector' L hL hlen

theorem c3_witness :
    read_vector ⟨write_vector [1, 42, 2 ^ 40], false⟩ =
      (⟨[], false⟩, [1, 42, 2 ^ 40]) :=
  c3_codec_roundtrip [1, 42, 2 ^ 40] (by decide) (by decide)

/-- C4: on any index reachable by adds, executing `add(d, t)` twice in
succession yields the same store state as executing it once. -/
theorem c4_add_idempotent (ops : List (Nat × String))
    (h1 : ∀ p ∈ ops, p.1 < 2 ^ 64) (h2 : ops.length + 1 < 2 ^ 64)
    (d : Nat) (t : String) (hd : d < 2 ^ 64) :
    ((runAdds ops).add_term d t).add_term d t = (runAdds ops).add_term d t := by
  have hinv : Inv (ops ++ [(d, t)]) ((runAdds ops).add_term d t) :=
    Inv_add_term ops (runAdds ops) d t (Inv_runAdds ops h1 (by omega)) hd (by omega)
  have hmem : (d, t) ∈ ops ++ [(d, t)] := by simp
  cases hfind : assocFind ((runAdds ops).add_term d t)._kvstore.store t with
  | none =>
      have h := hinv t
      rw [hfind] at h
      exact absurd hmem (h d)
  | some blob =>
      have h := hinv t
      rw [hfind] at h
      obtain ⟨L, hb, hs, hm, hbound, hne, hlen⟩ := h
      subst hb
      have hlenlt : L.length < 2 ^ 64 := by
        simp only [List.length_append, List.length_cons, List.length_nil] at hlen
        omega
      rw [add_term_of_found _ d t L hfind hbound hlenlt,
        if_pos ((binary_search_sorted L d hs).mpr ((hm d).mpr hmem))]

theorem c4_witness :
    ((runAdds []).add_term 5 "x").add_term 5 "x" = (runAdds []).add_term 5 "x" :=
  c4_add_idempotent [] (by decide) (by decide) 5 "x" (by decide)

/-- C6: the store contains `t` iff at least one `add(_, t)` was invoked; a
never-added term looks up to absence (the `none` variant), and a present term
never looks up to an empty list. -/
theorem c6_presence_iff_added (ops : List (Nat × String))
    (h1 : ∀ p ∈ ops, p.1 < 2 ^ 64) (h2 : ops.length < 2 ^ 64) (t : String) :
    ((runAdds ops)._kvstore.existsKey t = true ↔ ∃ d, (d, t) ∈ ops) ∧
    ((∀ d, (d, t) ∉ ops) → ((runAdds ops).get_doc_vector t).2 = none) ∧
    (∀ L, ((runAdds ops).get_doc_vector t).2 = some L → L ≠ []) := by
  have hinv := Inv_runAdds ops h1 h2
  cases hfind : assocFind (runAdds ops)._kvstore.store t with
  | none =>
      have h := hinv t
      rw [hfind] at h
      refine ⟨?_, ?_, ?_⟩
      · rw [existsKey_eq_false hfind]
        constructor
        · intro hfalse
          exact absurd hfalse (by simp)
        · rintro ⟨e, he⟩
          exact absurd he (h e)
      · intro _
        rw [get_doc_vector_of_missing _ t hfind]
      · intro L hL
        rw [get_doc_vector_of_missing _ t hfind] at hL
        simp at hL
  | some blob =>
      have h := hinv t
      rw [hfind] at h
      obtain ⟨L, hb, hs, hm, hbound, hne, hlen⟩ := h
      subst hb
      have hgdv := get_doc_vector_of_found _ t L hfind hbound
        (lt_of_le_of_lt hlen h2)
      obtain ⟨e, he⟩ := List.exists_mem_of_ne_nil L hne
      refine ⟨?_, ?_, ?_⟩
      · rw [existsKey_eq_true hfind]
        exact iff_of_true rfl ⟨e, (hm e).mp he⟩
      · intro hall
        exact absurd ((hm e).mp he) (hall e)
      · intro L' hL'
        rw [hgdv] at hL'
        simp only [Option.some.injEq] at hL'
        subst hL'
        exact hne

theorem c6_witness :
    ((runAdds [(3, "a")])._kvstore.existsKey "a" = true ↔
      ∃ d, (d, "a") ∈ [(3, "a")]) ∧
    ((∀ d, (d, "a") ∉ [(3, "a")]) →
      ((runAdds [(3, "a")]).get_doc_vector "a").2 = none) ∧
    (∀ L, ((runAdds [(3, "a")]).get_doc_vector "a").2 = some L → L ≠ []) :=
  c6_presence_iff_added [(3, "a")] (by decide) (by decide) "a"

/-- C7: a single `add_term` step on a reachable index only grows, per term, the
set of doc-ids returned by `lookup`: every doc-id present before is present
after. -/
theorem c7_posting_sets_grow (ops : List (Nat × String))
    (h1 : ∀ p ∈ ops, p.1 < 2 ^ 64) (h2 : ops.length + 1 < 2 ^ 64)
    (d : Nat) (t : String) (hd : d < 2 ^ 64) (t' : String) (x : Nat)
    (hx : x ∈ (((runAdds ops).get_doc_vector t').2.getD [])) :
    x ∈ ((((runAdds ops).add_term d t).get_doc_vector t').2.getD []) := by
  have hsnoc : (runAdds ops).add_term d t = runAdds (ops ++ [(d, t)]) :=
    (runAdds_snoc ops (d, t)).symm
  have h1' : ∀ p ∈ ops ++ [(d, t)], p.1 < 2 ^ 64 := by
    intro p hp
    rcases List.mem_append.mp hp with hp | hp
    · exact h1 p hp
    · simp only [List.mem_singleton] at hp
      rw [hp]
      exact hd
  have h2' : (ops ++ [(d, t)]).length < 2 ^ 64 := by
    simp only [List.length_append, List.length_cons, List.length_nil]
    omega
  rcases gdv_spec ops h1 (by omega) t' with ⟨hl, _⟩ | ⟨L, hl, _, hm, _⟩
  · rw [hl] at hx
    simp at hx
  · rw [hl] at hx
    have hxL : x ∈ L := hx
    have hops' : (x, t') ∈ ops ++ [(d, t)] :=
      List.mem_append_left _ ((hm x).mp hxL)
    rw [hsnoc]
    rcases gdv_spec (ops ++ [(d, t)]) h1' h2' t' with ⟨_, hnone'⟩ | ⟨L', hl', _, hm', _⟩
    · exact absurd hops' (hnone' x)
    · rw [hl']
      exact ((hm' x).mpr hops' : x ∈ L')

theorem c7_witness :
    (1 : Nat) ∈ ((((runAdds [(1, "a")]).add_term 2 "a").get_doc_vector "a").2.getD []) :=
  c7_posting_sets_grow [(1, "a")] (by decide) (by decide) 2 "a" (by decide)
    "a" 1 (by decide)

/-- C9: executing the demo sequence of adds from the empty index, the lookups
return "cat" ↦ [0,1,2], "mouse" ↦ [1], "dog" ↦ [0,2], "house" ↦ [1],
"tree" ↦ [1,2], and "fish" ↦ absence. -/
theorem c9_demo_scenario :
    ((runAdds demoOps).get_doc_vector "cat").2 = some [0, 1, 2] ∧
    ((runAdds demoOps).get_doc_vector "mouse").2 = some [1] ∧
    ((runAdds demoOps).get_doc_vector "dog").2 = some [0, 2] ∧
    ((runAdds demoOps).get_doc_vector "house").2 = some [1] ∧
    ((runAdds demoOps).get_doc_vector "tree").2 = some [1, 2] ∧
    ((runAdds demoOps).get_doc_vector "fish").2 = none := by
  decide

/-! ## C5 and C8: the spec's error behaviours, compared with the code -/

theorem read_vector_unfold (s : IStream) :
    read_vector s =
      (((s.read 8).1.read (8 * fromLEBytes (s.read 8).2)).1,
       readElems (fromLEBytes (s.read 8).2)
         ((s.read 8).1.read (8 * fromLEBytes (s.read 8).2)).2) := rfl

theorem IStream.read_of_le (bs : List Nat) (n : Nat) (h : n ≤ bs.length) :
    IStream.read ⟨bs, false⟩ n = (⟨bs.drop n, false⟩, bs.take n) := by
  simp [IStream.read, h]

theorem IStream.read_too_long (bs : List Nat) (n : Nat) (h : bs.length < n) :
    IStream.read ⟨bs, false⟩ n = (⟨[], true⟩, bs) := by
  simp only [IStream.read, Bool.false_eq_true, if_false, if_neg (by omega : ¬ n ≤ bs.length)]

theorem IStream.read_failed (bs : List Nat) (n : Nat) :
    IStream.read ⟨bs, true⟩ n = (⟨bs, true⟩, []) := by
  simp [IStream.read]

/-- C5 counterexample: on the buffer `[1,0,0,0,0,0,0,0]` (declared count 1 but
no element bytes left), the spec's read fails with `LengthOverflow`, but the
implementation does not fail: it consumes only the 8 header bytes and returns
the one-element vector `[0]`, merely leaving the stream's fail bit set. -/
theorem c5_counterexample :
    readVectorSpec [1, 0, 0, 0, 0, 0, 0, 0] = .error .LengthOverflow ∧
    read_vector ⟨[1, 0, 0, 0, 0, 0, 0, 0], false⟩ = (⟨[], true⟩, [0]) :=
  ⟨rfl, by decide⟩

/-- C5 amended: `read_vector` consumes exactly `8 + len * 8` bytes and
reconstructs the sequence whenever the buffer holds at least that many bytes;
on a short header it does not fail with `Truncated` but reads a zero-padded
length, consumes everything and sets the fail bit, yielding a zero-filled
vector; on a declared count exceeding the remaining bytes it does not fail with
`LengthOverflow` but consumes everything, zero-fills the missing element bytes
and sets the fail bit. -/
theorem c5_read_consumption (buf : List Nat) :
    (8 + 8 * fromLEBytes (buf.take 8) ≤ buf.length →
      read_vector ⟨buf, false⟩ =
        (⟨buf.drop (8 + 8 * fromLEBytes (buf.take 8)), false⟩,
         readElems (fromLEBytes (buf.take 8))
           ((buf.drop 8).take (8 * fromLEBytes (buf.take 8))))) ∧
    (buf.length < 8 →
      read_vector ⟨buf, false⟩ = (⟨[], true⟩, List.replicate (fromLEBytes buf) 0)) ∧
    (8 ≤ buf.length → buf.length < 8 + 8 * fromLEBytes (buf.take 8) →
      read_vector ⟨buf, false⟩ =
        (⟨[], true⟩, readElems (fromLEBytes (buf.take 8)) (buf.drop 8))) := by
  refine ⟨?_, ?_, ?_⟩
  · intro h
    have h8 : 8 ≤ buf.length := by omega
    rw [read_vector_unfold, IStream.read_of_le buf 8 h8]
    have hbody : 8 * fromLEBytes (buf.take 8) ≤ (buf.drop 8).length := by
      rw [List.length_drop]
      omega
    rw [IStream.read_of_le _ _ hbody]
    rw [List.drop_drop]
  · intro h
    rw [read_vector_unfold, IStream.read_too_long buf 8 h, IStream.read_failed,
      readElems_nil]
  · intro h8 hover
    rw [read_vector_unfold, IStream.read_of_le buf 8 h8]
    have hbody : (buf.drop 8).length < 8 * fromLEBytes (buf.take 8) := by
      rw [List.length_drop]
      omega
    rw [IStream.read_too_long _ _ hbody]

theorem c5_witness :
    read_vector ⟨[1, 0, 0, 0, 0, 0, 0, 0, 5, 0, 0, 0, 0, 0, 0, 0], false⟩ =
      (⟨[], false⟩, [5]) ∧
    read_vector ⟨[3], false⟩ = (⟨[], true⟩, [0, 0, 0]) ∧
    read_vector ⟨[2, 0, 0, 0, 0, 0, 0, 0, 9, 9], false⟩ =
      (⟨[], true⟩, [2313, 0]) := by
  refine ⟨?_, ?_, ?_⟩
  · have h := (c5_read_consumption [1, 0, 0, 0, 0, 0, 0, 0, 5, 0, 0, 0, 0, 0, 0, 0]).1
      (by decide)
    rw [h]
    decide
  · have h := (c5_read_consumption [3]).2.1 (by decide)
    rw [h]
    decide
  · have h := (c5_read_consumption [2, 0, 0, 0, 0, 0, 0, 0, 9, 9]).2.2
      (by decide) (by decide)
    rw [h]
    decide

/-- C8 counterexample: calling `get` on the empty store, where `exists` is
false, does not raise `MissingKey` as the claim states: it returns the empty
blob and inserts the key with an empty value. -/
theorem c8_counterexample :
    getSpec ⟨[]⟩ "a" = .error .MissingKey ∧
    KVStore.existsKey ⟨[]⟩ "a" = false ∧
    KVStore.get ⟨[]⟩ "a" = (⟨[("a", [])]⟩, []) :=
  ⟨rfl, by decide, by decide⟩

/-- C8 amended: `get(k)` returns exactly the previously put blob (leaving the
store unchanged) when the key is present; when `exists(k)` is false it does not
raise `MissingKey`: it returns the empty blob, inserting the key with an empty
value. -/
theorem c8_get_behaviour (s : KVStore) (k : String) (v : List Nat) :
    ((s.insert k v).get k = (s.insert k v, v)) ∧
    (s.existsKey k = false →
      s.get k = (s.insert k [], [])) := by
  constructor
  · have hfind : assocFind (s.insert k v).store k = some v := by
      show assocFind (assocInsert s.store k v) k = some v
      rw [assocFind_assocInsert, if_pos rfl]
    exact KVStore.get_found _ _ _ hfind
  · intro h
    cases hfind : assocFind s.store k with
    | none => simp [KVStore.get, hfind]
    | some w =>
        rw [existsKey_eq_true hfind] at h
        exact absurd h (by simp)

theorem c8_witness :
    (((⟨[]⟩ : KVStore).insert "a" [1]).get "a" =
      ((⟨[]⟩ : KVStore).insert "a" [1], [1])) ∧
    ((⟨[]⟩ : KVStore).get "a" = ((⟨[]⟩ : KVStore).insert "a" [], [])) :=
  ⟨(c8_get_behaviour ⟨[]⟩ "a" [1]).1,
   (c8_get_behaviour ⟨[]⟩ "a" [1]).2 (by decide)⟩

/-- C10: the store's `get` is not read-only: on a key whose `exists` is false
it returns the empty blob and inserts the key with an empty value, so `exists`
holds afterwards; `get_doc_vector` avoids this only because it checks `exists`
first, leaving the index untouched on a missing term. -/
theorem c10_get_mutates (s : KVStore) (k : String) (h : s.existsKey k = false) :
    s.get k = (s.insert k [], []) ∧
    (s.get k).1.existsKey k = true ∧
    IIndex.get_doc_vector ⟨s⟩ k = (⟨s⟩, none) := by
  have hfind : assocFind s.store k = none := by
    cases hfind : assocFind s.store k with
    | none => rfl
    | some w =>
        rw [existsKey_eq_true hfind] at h
        exact absurd h (by simp)
  refine ⟨?_, ?_, get_doc_vector_of_missing ⟨s⟩ k hfind⟩
  · simp [KVStore.get, hfind]
  · simp only [KVStore.get, hfind]
    show KVStore.existsKey (s.insert k []) k = true
    apply existsKey_eq_true (v := [])
    show assocFind (assocInsert s.store k []) k = some []
    rw [assocFind_assocInsert, if_pos rfl]

theorem c10_witness :
    (⟨[]⟩ : KVStore).get "a" = ((⟨[]⟩ : KVStore).insert "a" [], []) ∧
    ((⟨[]⟩ : KVStore).get "a").1.existsKey "a" = true ∧
    IIndex.get_doc_vector ⟨⟨[]⟩⟩ "a" = (⟨⟨[]⟩⟩, none) :=
  c10_get_mutates ⟨[]⟩ "a" (by decide)

end InvIdx
